import Mathlib

/-!
Verification development for the BIDS metadata parser
(`datalad/metadata/parsers/bids.py`).

The embedding models Python dictionaries as association lists with
insertion-order semantics (`dinsert` replaces the value at the first
occurrence of a key, otherwise appends; `dget` returns the value at the
first occurrence), Python truthiness over JSON-like values, and Python
exceptions as `Except`.  External collaborators (the `pybids` layout
object, the filesystem, the csv module's row parsing) are modelled as
inputs: the environment records the raw descriptor mapping, the README
content, the parsed participant rows and the per-file metadata query.
-/

namespace Bids

/-- Association-list model of a Python `dict` (insertion ordered). -/
abbrev Dict (α : Type) := List (String × α)

/-- `d.get(k)` / `d[k]`: value at the first occurrence of key `k`. -/
def dget {α : Type} (d : Dict α) (k : String) : Option α :=
  match d with
  | [] => none
  | (k', v) :: rest => if k' = k then some v else dget rest k

/-- `d[k] = v`: replace the value at the first occurrence of `k`,
else append the new pair at the end (Python dict assignment). -/
def dinsert {α : Type} (d : Dict α) (k : String) (v : α) : Dict α :=
  match d with
  | [] => [(k, v)]
  | (k', v') :: rest =>
      if k' = k then (k, v) :: rest else (k', v') :: dinsert rest k v

/-- `d.update(u)`: assign every pair of `u` into `d`, in order. -/
def dupdate {α : Type} (d : Dict α) : Dict α → Dict α
  | [] => d
  | (k, v) :: u => dupdate (dinsert d k v) u

/-- Whether the first list is an initial segment of the second. -/
def lpre : List Char → List Char → Bool
  | [], _ => true
  | _ :: _, [] => false
  | c :: cs, d :: ds => c = d && lpre cs ds

/-- Python `s.startswith(p)`. -/
def py_startswith (s p : String) : Bool := lpre p.data s.data

/-- Python `s.endswith(p)`. -/
def py_endswith (s p : String) : Bool := lpre p.data.reverse s.data.reverse

/-- JSON-like Python values as handled by the parser. -/
inductive Value where
  | str (s : String)
  | num (n : Int)
  | bool (b : Bool)
  | null
  | list (l : List Value)
  | dict (d : List (String × Value))

/-- Python truthiness of a `Value`. -/
def truthy : Value → Bool
  | .str s => !(s = "")
  | .num n => !(n = 0)
  | .bool b => b
  | .null => false
  | .list l => !l.isEmpty
  | .dict d => !d.isEmpty

/-- `isinstance(v, dict)`: the test the code applies before keeping a
per-file metadata value. -/
def Value.isDictV : Value → Bool
  | .dict _ => true
  | _ => false

/-- A value that is a nested structure, following the spec's words
("drop any value that is itself a nested structure"): a mapping or a
list.  Kept separate from `Value.isDictV` (the test the code performs)
so the two notions can be compared. -/
def Value.isNested : Value → Bool
  | .dict _ => true
  | .list _ => true
  | _ => false

/-- Python whitespace characters stripped by `str.strip()` (ASCII part). -/
def isPyWS (c : Char) : Bool :=
  c = ' ' || c = '\t' || c = '\n' || c = '\r' || c = '\x0b' || c = '\x0c'

/-- Python `s.strip()`. -/
def pyStrip (s : String) : String :=
  String.mk (((s.data.dropWhile isPyWS).reverse.dropWhile isPyWS).reverse)

/-- Python `s.lower()` (ASCII). -/
def pyLower (s : String) : String := String.mk (s.data.map Char.toLower)

/-! ## Dataset-level metadata (`MetadataParser._get_dsmeta`) -/

/-- `MetadataParser._key2stdkey`. -/
def key2stdkey : Dict String :=
  [("Name", "name"),
   ("License", "license"),
   ("Authors", "author"),
   ("ReferencesAndLinks", "citation"),
   ("Funding", "fundedby"),
   ("Description", "description")]

/-- `self._key2stdkey.get(k, 'comment<%s>' % k)`: the standardized key a
raw descriptor key is stored under. -/
def stdkeyOf (k : String) : String :=
  (dget key2stdkey k).getD ("comment<" ++ k ++ ">")

/-- The dict comprehension of `_get_dsmeta`: build a fresh dict whose
assignments are `meta[stdkeyOf k] = v` in the raw mapping's order. -/
def remapInto (acc : Dict Value) : Dict Value → Dict Value
  | [] => acc
  | (k, v) :: rest => remapInto (dinsert acc (stdkeyOf k) v) rest

/-- The remapped descriptor metadata. -/
def remapDescr (raw : Dict Value) : Dict Value := remapInto [] raw

/-- Modelled from the spec: the opaque type tag marking a vocabulary
identifier.  It is imported from `datalad.metadata.definitions`
(`vocabulary_id`), a module not present under `src/`; no claim depends
on its actual value. -/
def vocabulary_id : Value := .str "vocabulary_id"

/-- The module-level static `vocabulary` mapping. -/
def vocabulary : Dict Value :=
  [("bids:age(years)", .dict
     [("@id", .str "pato:0000011"),
      ("unit", .str "uo:0000036"),
      ("unit_label", .str "year"),
      ("description",
       .str "age of a sample (organism) at the time of data acquisition in years")])]

/-- Environment of `_get_dsmeta`: the raw descriptor mapping returned by
`bids.get_metadata(<root>/dataset_description.json)` and the content of a
`README` file at the dataset root when one exists (`open_r_encdetect`
reading is external; we are handed the decoded text). -/
structure DsEnv where
  descrMeta : Dict Value
  readme : Option String

/-- The dataset metadata after the key remapping and the README
description fallback, before the `conformsto` / `@context` step. -/
def dsMetaPreV (env : DsEnv) : Dict Value :=
  let meta := remapDescr env.descrMeta
  match env.readme with
  | some txt =>
      if truthy ((dget meta "description").getD .null) then meta
      else dinsert meta "description" (.str (pyStrip txt))
  | none => meta

/-- `(meta.get('comment<BIDSVersion>', '') or '').strip()`.  A truthy
non-string value has no `.strip` attribute: Python raises, modelled as
`Except.error`. -/
def bidsVersionE (meta : Dict Value) : Except Unit String :=
  let v := (dget meta "comment<BIDSVersion>").getD (.str "")
  let v := if truthy v then v else .str ""
  match v with
  | .str s => .ok (pyStrip s)
  | _ => .error ()

/-- The `conformsto` URL for a given (already stripped) version string. -/
def bidsDefurl (version : String) : String :=
  if truthy (.str version) then
    "http://bids.neuroimaging.io" ++ "/bids_spec" ++ version ++ ".pdf"
  else "http://bids.neuroimaging.io"

/-- The `@context` mapping: `context['bids'] = {...}` followed by
`context.update(vocabulary)`. -/
def bidsContext (defurl : String) : Dict Value :=
  dupdate
    (dinsert [] "bids" (.dict
      [("@id", .str (defurl ++ "#")),
       ("description",
        .str "ad-hoc vocabulary for the Brain Imaging Data Structure (BIDS) standard"),
       ("type", vocabulary_id)]))
    vocabulary

/-- `MetadataParser._get_dsmeta`. -/
def getDsmeta (env : DsEnv) : Except Unit (Dict Value) :=
  match bidsVersionE (dsMetaPreV env) with
  | .error e => .error e
  | .ok bids_version =>
      .ok (dinsert
            (dinsert (dsMetaPreV env) "conformsto" (.str (bidsDefurl bids_version)))
            "@context" (.dict (bidsContext (bidsDefurl bids_version))))

/-! ## Participant table (`yield_participant_info`) -/

/-- A parsed table row as produced by `csv.DictReader`: header name to
field value, in header order. -/
abbrev Row := Dict String

/-- Module-level `content_metakey_map`. -/
def content_metakey_map : Dict String :=
  [("participant_id", "bids:participant_id"),
   ("age", "bids:age(years)")]

/-- Module-level `sex_label_map`. -/
def sex_label_map : Dict String :=
  [("f", "female"),
   ("m", "male")]

/-- `sex_label_map.get(val.lower(), val.lower())`. -/
def sexNorm (v : String) : String :=
  (dget sex_label_map (pyLower v)).getD (pyLower v)

/-- The standardized key for a lowercased column name:
`content_metakey_map.get(normk)` with the
`comment<participant#...>` fallback. -/
def colKeyOf (normk : String) : String :=
  (dget content_metakey_map normk).getD ("comment<participant#" ++ normk ++ ">")

/-- The value stored for column `k` with field value `v`: normalized
through `sex_label_map` when the standardized key is the sex/gender
comment fallback, otherwise unchanged. -/
def colVal (k v : String) : String :=
  if colKeyOf (pyLower k) = "comment<participant#sex>"
     ∨ colKeyOf (pyLower k) = "comment<participant#gender>"
  then sexNorm v else v

/-- The per-row column loop of `yield_participant_info`: fold the row's
columns into a `props` dict, normalizing sex/gender labels and skipping
falsy values. -/
def rowPropsInto (acc : Dict String) : List (String × String) → Dict String
  | [] => acc
  | (k, v) :: rest =>
      rowPropsInto
        (if colVal k v = "" then acc
         else dinsert acc (colKeyOf (pyLower k)) (colVal k v)) rest

/-- Properties collected for one row. -/
def rowProps (row : Row) : Dict String := rowPropsInto [] row

/-- `yield_participant_info` over the parsed rows: stop at the first row
lacking a `participant_id` field; yield `(participant_id, props)` for
each row with non-empty `props` (the compiled pattern
`^<participant_id>/.*` is represented by the id string; see
`ruleMatch`). -/
def yield_participant_info : List Row → List (String × Dict String)
  | [] => []
  | row :: rest =>
      match dget row "participant_id" with
      | none => []
      | some pid =>
          let props := rowProps row
          if props.isEmpty then yield_participant_info rest
          else (pid, props) :: yield_participant_info rest

/-! ## The compiled pattern `^<pid>/.*` and `rx.match(f)`

Python's `re` is embedded only as far as the patterns this module
builds require: the pattern is `'^' + pid + '/.*'`, matched with
`rx.match` (anchored at the start).  For a `pid` free of the regex
metacharacters `^ $ * + ? { } [ ] \ | ( )` every character of `pid` is
a literal except `.`, which matches any single character other than a
newline; the trailing `/.*` requires a `/` and then matches anything.
For a `pid` containing one of the unsupported metacharacters the
embedding is partial (`compileSimple` returns `none`) and theorems
about matching carry the corresponding hypothesis. -/

/-- One regex atom of a compiled participant pattern. -/
inductive RAtom where
  | lit (c : Char)
  | anyc

/-- Whether an atom matches a character (`.` does not match newline). -/
def atomMatch : RAtom → Char → Bool
  | .lit c, d => c = d
  | .anyc, d => !(d = '\n')

/-- Regex metacharacters whose literal-atom translation would be wrong. -/
def isReMeta (c : Char) : Bool :=
  c = '^' || c = '$' || c = '*' || c = '+' || c = '?' || c = '{' ||
  c = '}' || c = '[' || c = ']' || c = '\\' || c = '|' || c = '(' || c = ')'

/-- Translate one `pid` character to an atom (none for unsupported
metacharacters). -/
def compileChar (c : Char) : Option RAtom :=
  if isReMeta c then none
  else if c = '.' then some .anyc
  else some (.lit c)

/-- Translate a whole `pid` to its atom list. -/
def compileSimple : List Char → Option (List RAtom)
  | [] => some []
  | c :: cs =>
      match compileChar c, compileSimple cs with
      | some a, some as => some (a :: as)
      | _, _ => none

/-- Match the pattern `^<atoms>/.*` against a path (the trailing `.*`
always matches, so success means: the atoms match the first characters
and the next character is `/`). -/
def reMatchAtoms : List RAtom → List Char → Bool
  | [], [] => false
  | [], d :: _ => d = '/'
  | _ :: _, [] => false
  | a :: as, c :: cs => atomMatch a c && reMatchAtoms as cs

/-- `re.match('^' + pid + '/.*', f)` of the compiled participant
pattern (for `pid` within the embedded regex fragment). -/
def ruleMatch (pid f : String) : Bool :=
  match compileSimple pid.data with
  | some atoms => reMatchAtoms atoms f.data
  | none => false

/-! ## Per-file metadata (`MetadataParser._get_cnmeta`) -/

/-- Environment of `_get_cnmeta`: the candidate paths (`self.paths`),
the per-file layout query `bids.get_metadata(opj(root, f))` (which may
raise), the parsed rows of `participants.tsv` when that file exists,
and the `datalad.runtime.raiseonerror` configuration flag. -/
structure CnEnv where
  paths : List String
  fileQuery : String → Except String (Dict Value)
  participantsRows : Option (List Row)
  raiseonerror : Bool

/-- `path_props`: rules loaded from the participant table, keyed by the
compiled pattern (equal ids compile to the same cached pattern object,
so assignment replaces in place). -/
def pathProps (env : CnEnv) : Dict (Dict String) :=
  match env.participantsRows with
  | none => []
  | some rows =>
      (yield_participant_info rows).foldl (fun acc r => dinsert acc r.1 r.2) []

/-- Participant properties are csv field strings; as record values they
are Python strings. -/
def strProps (props : Dict String) : Dict Value :=
  props.map (fun kv => (kv.1, Value.str kv.2))

/-- The overlay loop: `for rx in path_props: if rx.match(f):
md.update(path_props[rx])`. -/
def applyOverlays (f : String) (md : Dict Value) : Dict (Dict String) → Dict Value
  | [] => md
  | (pid, props) :: pp =>
      applyOverlays f (if ruleMatch pid f then dupdate md (strProps props) else md) pp

/-- The dict comprehension building the base record: prefix every query
key with `bids:`, dropping entries whose value is a `dict`
(`isinstance(v, dict)`). -/
def bidsFlattenInto (acc : Dict Value) : List (String × Value) → Dict Value
  | [] => acc
  | (k, v) :: rest =>
      bidsFlattenInto (if v.isDictV then acc else dinsert acc ("bids:" ++ k) v) rest

/-- The body of the per-file loop for one non-sidecar file: build the
`bids:`-prefixed record from the query (dropping `dict` values), or on
a query error keep the empty base record (lenient) or re-raise
(strict); then apply the overlays. -/
def processFile (env : CnEnv) (pp : Dict (Dict String)) (f : String) :
    Except String (Dict Value) :=
  match env.fileQuery f with
  | .ok qmd => .ok (applyOverlays f (bidsFlattenInto [] qmd) pp)
  | .error e =>
      if env.raiseonerror then .error e
      else .ok (applyOverlays f [] pp)

/-- Everything an iteration of the `_get_cnmeta` generator can deliver:
the `(path, record)` pairs yielded, and the exception that terminated
the iteration, if any. -/
structure CnResult where
  pairs : List (String × Dict Value)
  err : Option String

/-- The per-file loop over the remaining candidate paths. -/
def cnAux (env : CnEnv) (pp : Dict (Dict String)) : List String → CnResult
  | [] => ⟨[], none⟩
  | f :: rest =>
      if py_endswith f ".json" then cnAux env pp rest
      else
        match processFile env pp f with
        | .ok md =>
            let r := cnAux env pp rest
            ⟨(f, md) :: r.pairs, r.err⟩
        | .error e => ⟨[], some e⟩

/-- `MetadataParser._get_cnmeta`, iterated to exhaustion. -/
def get_cnmeta (env : CnEnv) : CnResult :=
  cnAux env (pathProps env) env.paths

/-! ## `MetadataParser.get_metadata` -/

/-- Environment of one `get_metadata` call: whether
`<root>/dataset_description.json` exists, and the inputs of the two
extractors. -/
structure DatasetEnv where
  hasDescriptor : Bool
  ds : DsEnv
  cn : CnEnv

/-- The empty per-file metadata sequence. -/
def emptyCn : CnResult := ⟨[], none⟩

/-- `MetadataParser.get_metadata(dataset, content)`. -/
def get_metadata (env : DatasetEnv) (content : Bool) :
    Except Unit (Dict Value × CnResult) :=
  if !env.hasDescriptor then .ok ([], emptyCn)
  else
    match getDsmeta env.ds with
    | .error e => .error e
    | .ok dsmeta =>
        if !content then .ok (dsmeta, emptyCn)
        else .ok (dsmeta, get_cnmeta env.cn)

/-! ## Dictionary lemmas -/

theorem dget_dinsert {α : Type} (d : Dict α) (k k' : String) (v : α) :
    dget (dinsert d k v) k' = if k = k' then some v else dget d k' := by
  induction d with
  | nil => simp [dget, dinsert]
  | cons hd tl ih =>
      obtain ⟨a, b⟩ := hd
      by_cases hak : a = k
      · subst hak
        by_cases hkk : a = k'
        · subst hkk; simp [dget, dinsert]
        · simp [dget, dinsert, hkk]
      · by_cases hak' : a = k'
        · subst hak'
          have hkk : ¬ k = a := fun h => hak h.symm
          simp [dget, dinsert, hak, hkk]
        · simp [dget, dinsert, hak, hak', ih]

theorem dget_dupdate_of_not_mem {α : Type} (u d : Dict α) (k : String)
    (h : k ∉ u.map Prod.fst) : dget (dupdate d u) k = dget d k := by
  induction u generalizing d with
  | nil => simp [dupdate]
  | cons hd tl ih =>
      obtain ⟨a, b⟩ := hd
      simp only [List.map_cons, List.mem_cons] at h
      push_neg at h
      rw [show dupdate d ((a, b) :: tl) = dupdate (dinsert d a b) tl from rfl,
          ih _ (fun hmem => h.2 hmem), dget_dinsert]
      exact if_neg (fun hh => h.1 hh.symm)

theorem isSome_dget_dupdate {α : Type} (u d : Dict α) (k : String) :
    (dget (dupdate d u) k).isSome = ((dget d k).isSome || decide (k ∈ u.map Prod.fst)) := by
  induction u generalizing d with
  | nil => simp [dupdate]
  | cons hd tl ih =>
      obtain ⟨a, b⟩ := hd
      rw [show dupdate d ((a, b) :: tl) = dupdate (dinsert d a b) tl from rfl, ih,
          dget_dinsert]
      by_cases hak : a = k
      · simp [hak]
      · have hka : ¬ k = a := fun h => hak h.symm
        rw [if_neg hak]
        simp [hka]
        rw [show (k == a) = false from beq_eq_false_iff_ne.mpr hka]
        simp

theorem mem_of_dget {α : Type} (d : Dict α) (k : String) (v : α)
    (h : dget d k = some v) : (k, v) ∈ d := by
  induction d with
  | nil => simp [dget] at h
  | cons hd tl ih =>
      obtain ⟨a, b⟩ := hd
      by_cases hak : a = k
      · subst hak
        simp [dget] at h
        simp [h]
      · simp [dget, hak] at h
        exact List.mem_cons_of_mem _ (ih h)

theorem dinsert_pred {α : Type} (P : α → Prop) (d : Dict α) (k : String) (v : α)
    (hd : ∀ kv ∈ d, P kv.2) (hv : P v) : ∀ kv ∈ dinsert d k v, P kv.2 := by
  induction d with
  | nil => simpa [dinsert] using hv
  | cons hd0 tl ih =>
      obtain ⟨a, b⟩ := hd0
      intro kv hkv
      by_cases hak : a = k
      · simp [dinsert, hak] at hkv
        rcases hkv with h1 | h2
        · subst h1; exact hv
        · exact hd _ (List.mem_cons_of_mem _ h2)
      · simp only [dinsert, if_neg hak, List.mem_cons] at hkv
        rcases hkv with h1 | h2
        · subst h1; exact hd _ (List.mem_cons_self _ _)
        · exact ih (fun kv h => hd _ (List.mem_cons_of_mem _ h)) _ h2

theorem dupdate_pred {α : Type} (P : α → Prop) (d u : Dict α)
    (hd : ∀ kv ∈ d, P kv.2) (hu : ∀ kv ∈ u, P kv.2) :
    ∀ kv ∈ dupdate d u, P kv.2 := by
  induction u generalizing d with
  | nil => simpa [dupdate] using hd
  | cons hd0 tl ih =>
      obtain ⟨a, b⟩ := hd0
      exact ih (dinsert d a b)
        (dinsert_pred P d a b hd (hu _ (List.mem_cons_self _ _)))
        (fun kv h => hu _ (List.mem_cons_of_mem _ h))

/-! ## String lemmas and injectivity of the key translations -/

theorem sdata_append (a b : String) : (a ++ b).data = a.data ++ b.data := rfl

theorem lpre_self_append (p r : List Char) : lpre p (p ++ r) = true := by
  induction p with
  | nil => rfl
  | cons c cs ih => simp [lpre, ih]

/-- Left inverse of `stdkeyOf` (a proof device for injectivity). -/
def unstd (s : String) : String :=
  if lpre "comment<".data s.data then String.mk ((s.data.drop 8).dropLast)
  else if s = "name" then "Name"
  else if s = "license" then "License"
  else if s = "author" then "Authors"
  else if s = "citation" then "ReferencesAndLinks"
  else if s = "fundedby" then "Funding"
  else if s = "description" then "Description"
  else s

theorem comment_data (k : String) :
    ("comment<" ++ k ++ ">").data = "comment<".data ++ (k.data ++ ['>']) := by
  rw [sdata_append, sdata_append, List.append_assoc]

theorem unstd_comment (k : String) : unstd ("comment<" ++ k ++ ">") = k := by
  have hl : lpre "comment<".data ("comment<" ++ k ++ ">").data = true := by
    rw [comment_data]; exact lpre_self_append _ _
  have hdrop : (("comment<" ++ k ++ ">").data.drop 8) = k.data ++ ['>'] := by
    rw [comment_data, show (8 : Nat) = ("comment<" : String).data.length from rfl]
    simp
  unfold unstd
  rw [if_pos hl, hdrop]
  simp

theorem dget_key2stdkey_none (k : String)
    (h1 : ¬ k = "Name") (h2 : ¬ k = "License") (h3 : ¬ k = "Authors")
    (h4 : ¬ k = "ReferencesAndLinks") (h5 : ¬ k = "Funding")
    (h6 : ¬ k = "Description") : dget key2stdkey k = none := by
  have g1 : ¬ ("Name" = k) := fun h => h1 h.symm
  have g2 : ¬ ("License" = k) := fun h => h2 h.symm
  have g3 : ¬ ("Authors" = k) := fun h => h3 h.symm
  have g4 : ¬ ("ReferencesAndLinks" = k) := fun h => h4 h.symm
  have g5 : ¬ ("Funding" = k) := fun h => h5 h.symm
  have g6 : ¬ ("Description" = k) := fun h => h6 h.symm
  simp [key2stdkey, dget, g1, g2, g3, g4, g5, g6]

theorem unstd_stdkeyOf (k : String) : unstd (stdkeyOf k) = k := by
  by_cases h1 : k = "Name"
  · subst h1; decide
  by_cases h2 : k = "License"
  · subst h2; decide
  by_cases h3 : k = "Authors"
  · subst h3; decide
  by_cases h4 : k = "ReferencesAndLinks"
  · subst h4; decide
  by_cases h5 : k = "Funding"
  · subst h5; decide
  by_cases h6 : k = "Description"
  · subst h6; decide
  have hnone := dget_key2stdkey_none k h1 h2 h3 h4 h5 h6
  have : stdkeyOf k = "comment<" ++ k ++ ">" := by simp [stdkeyOf, hnone]
  rw [this]
  exact unstd_comment k

theorem stdkeyOf_inj {k1 k2 : String} (h : stdkeyOf k1 = stdkeyOf k2) : k1 = k2 := by
  have h2 := congrArg unstd h
  rwa [unstd_stdkeyOf, unstd_stdkeyOf] at h2

/-- Left inverse of `colKeyOf` (a proof device for injectivity). -/
def uncol (s : String) : String :=
  if lpre "comment<participant#".data s.data then String.mk ((s.data.drop 20).dropLast)
  else if s = "bids:participant_id" then "participant_id"
  else if s = "bids:age(years)" then "age"
  else s

theorem pcomment_data (k : String) :
    ("comment<participant#" ++ k ++ ">").data
      = "comment<participant#".data ++ (k.data ++ ['>']) := by
  rw [sdata_append, sdata_append, List.append_assoc]

theorem uncol_comment (k : String) :
    uncol ("comment<participant#" ++ k ++ ">") = k := by
  have hl : lpre "comment<participant#".data
      ("comment<participant#" ++ k ++ ">").data = true := by
    rw [pcomment_data]; exact lpre_self_append _ _
  have hdrop : (("comment<participant#" ++ k ++ ">").data.drop 20) = k.data ++ ['>'] := by
    rw [pcomment_data,
        show (20 : Nat) = ("comment<participant#" : String).data.length from rfl]
    simp
  unfold uncol
  rw [if_pos hl, hdrop]
  simp

theorem uncol_colKeyOf (normk : String) : uncol (colKeyOf normk) = normk := by
  by_cases h1 : normk = "participant_id"
  · subst h1; decide
  by_cases h2 : normk = "age"
  · subst h2; decide
  have g1 : ¬ ("participant_id" = normk) := fun h => h1 h.symm
  have g2 : ¬ ("age" = normk) := fun h => h2 h.symm
  have hnone : dget content_metakey_map normk = none := by
    simp [content_metakey_map, dget, g1, g2]
  have : colKeyOf normk = "comment<participant#" ++ normk ++ ">" := by
    simp [colKeyOf, hnone]
  rw [this]
  exact uncol_comment normk

theorem colKeyOf_inj {k1 k2 : String} (h : colKeyOf k1 = colKeyOf k2) : k1 = k2 := by
  have h2 := congrArg uncol h
  rwa [uncol_colKeyOf, uncol_colKeyOf] at h2

/-! ## Characterization of the descriptor remapping -/

theorem dget_remapInto_of_not_mem (raw : Dict Value) (acc : Dict Value) (k' : String)
    (h : ∀ kv ∈ raw, stdkeyOf kv.1 ≠ k') :
    dget (remapInto acc raw) k' = dget acc k' := by
  induction raw generalizing acc with
  | nil => rfl
  | cons hd tl ih =>
      obtain ⟨a, b⟩ := hd
      rw [show remapInto acc ((a, b) :: tl) = remapInto (dinsert acc (stdkeyOf a) b) tl
            from rfl,
          ih _ (fun kv hkv => h kv (List.mem_cons_of_mem _ hkv)),
          dget_dinsert]
      exact if_neg (h (a, b) (List.mem_cons_self _ _))

theorem dget_remapInto (raw : Dict Value) (acc : Dict Value) (k : String) (v : Value)
    (hnd : (raw.map Prod.fst).Nodup) (hmem : (k, v) ∈ raw) :
    dget (remapInto acc raw) (stdkeyOf k) = some v := by
  induction raw generalizing acc with
  | nil => cases hmem
  | cons hd tl ih =>
      obtain ⟨a, b⟩ := hd
      simp only [List.map_cons, List.nodup_cons] at hnd
      rcases List.mem_cons.mp hmem with heq | htl
      · obtain ⟨hka, hvb⟩ := Prod.mk.injEq .. ▸ heq
        subst hka; subst hvb
        rw [show remapInto acc ((k, v) :: tl) = remapInto (dinsert acc (stdkeyOf k) v) tl
              from rfl,
            dget_remapInto_of_not_mem _ _ _
              (fun kv hkv hst => hnd.1 (by
                rw [← stdkeyOf_inj hst]
                exact List.mem_map_of_mem Prod.fst hkv)),
            dget_dinsert]
        simp
      · exact ih _ hnd.2 htl

theorem dget_remapDescr (raw : Dict Value) (k : String) (v : Value)
    (hnd : (raw.map Prod.fst).Nodup) (hmem : (k, v) ∈ raw) :
    dget (remapDescr raw) (stdkeyOf k) = some v :=
  dget_remapInto raw [] k v hnd hmem

/-! ## Characterization of the per-row properties -/

theorem dget_rowPropsInto_of_not_mem (row : List (String × String)) (acc : Dict String)
    (k' : String) (h : ∀ kv ∈ row, colKeyOf (pyLower kv.1) ≠ k') :
    dget (rowPropsInto acc row) k' = dget acc k' := by
  induction row generalizing acc with
  | nil => rfl
  | cons hd tl ih =>
      obtain ⟨a, b⟩ := hd
      rw [show rowPropsInto acc ((a, b) :: tl)
            = rowPropsInto
                (if colVal a b = "" then acc
                 else dinsert acc (colKeyOf (pyLower a)) (colVal a b)) tl from rfl,
          ih _ (fun kv hkv => h kv (List.mem_cons_of_mem _ hkv))]
      by_cases hv : colVal a b = ""
      · rw [if_pos hv]
      · rw [if_neg hv, dget_dinsert]
        exact if_neg (h (a, b) (List.mem_cons_self _ _))

theorem dget_rowPropsInto (row : List (String × String)) (acc : Dict String)
    (k v : String) (hnd : (row.map (fun kv => pyLower kv.1)).Nodup)
    (hmem : (k, v) ∈ row) :
    dget (rowPropsInto acc row) (colKeyOf (pyLower k))
      = if colVal k v = "" then dget acc (colKeyOf (pyLower k)) else some (colVal k v) := by
  induction row generalizing acc with
  | nil => cases hmem
  | cons hd tl ih =>
      obtain ⟨a, b⟩ := hd
      simp only [List.map_cons, List.nodup_cons] at hnd
      rcases List.mem_cons.mp hmem with heq | htl
      · obtain ⟨hka, hvb⟩ := Prod.mk.injEq .. ▸ heq
        subst hka; subst hvb
        have hnomem : ∀ kv ∈ tl, colKeyOf (pyLower kv.1) ≠ colKeyOf (pyLower k) := by
          intro kv hkv hst
          exact hnd.1 (by
            rw [← colKeyOf_inj hst]
            exact List.mem_map.mpr ⟨kv, hkv, rfl⟩)
        rw [show rowPropsInto acc ((k, v) :: tl)
              = rowPropsInto
                  (if colVal k v = "" then acc
                   else dinsert acc (colKeyOf (pyLower k)) (colVal k v)) tl from rfl,
            dget_rowPropsInto_of_not_mem _ _ _ hnomem]
        by_cases hv : colVal k v = ""
        · rw [if_pos hv, if_pos hv]
        · rw [if_neg hv, if_neg hv, dget_dinsert]
          simp
      · have hne : colKeyOf (pyLower a) ≠ colKeyOf (pyLower k) := by
          intro hst
          have hpl : pyLower a = pyLower k := colKeyOf_inj hst
          exact hnd.1 (by
            rw [hpl]
            exact List.mem_map.mpr ⟨(k, v), htl, rfl⟩)
        rw [show rowPropsInto acc ((a, b) :: tl)
              = rowPropsInto
                  (if colVal a b = "" then acc
                   else dinsert acc (colKeyOf (pyLower a)) (colVal a b)) tl from rfl,
            ih _ hnd.2 htl]
        by_cases hv : colVal a b = ""
        · rw [if_pos hv]
        · rw [if_neg hv]
          by_cases hkv : colVal k v = ""
          · rw [if_pos hkv, if_pos hkv, dget_dinsert, if_neg hne]
          · rw [if_neg hkv, if_neg hkv]

theorem dget_rowProps (row : Row) (k v : String)
    (hnd : (row.map (fun kv => pyLower kv.1)).Nodup) (hmem : (k, v) ∈ row) :
    dget (rowProps row) (colKeyOf (pyLower k))
      = if colVal k v = "" then none else some (colVal k v) := by
  rw [rowProps, dget_rowPropsInto row [] k v hnd hmem]
  rfl

/-! ## Characterization of the overlays and the per-file loop -/

theorem strProps_keys (props : Dict String) :
    (strProps props).map Prod.fst = props.map Prod.fst := by
  simp [strProps]

theorem isSome_applyOverlays (pp : Dict (Dict String)) (f : String) (md : Dict Value)
    (k : String) :
    (dget (applyOverlays f md pp) k).isSome
      = ((dget md k).isSome
         || pp.any (fun r => ruleMatch r.1 f && decide (k ∈ r.2.map Prod.fst))) := by
  induction pp generalizing md with
  | nil => simp [applyOverlays]
  | cons hd tl ih =>
      obtain ⟨pid, props⟩ := hd
      rw [show applyOverlays f md ((pid, props) :: tl)
            = applyOverlays f
                (if ruleMatch pid f then dupdate md (strProps props) else md) tl
            from rfl, ih]
      cases hm : ruleMatch pid f with
      | true =>
          rw [if_pos rfl, isSome_dget_dupdate, strProps_keys]
          simp [hm, Bool.or_assoc]
      | false =>
          rw [if_neg (by simp)]
          simp [hm]

theorem isSome_applyOverlays_iff (pp : Dict (Dict String)) (f : String) (md : Dict Value)
    (k : String) :
    (dget (applyOverlays f md pp) k).isSome = true ↔
      ((dget md k).isSome = true
        ∨ ∃ pid props, (pid, props) ∈ pp ∧ ruleMatch pid f = true
            ∧ k ∈ props.map Prod.fst) := by
  rw [isSome_applyOverlays]
  simp [List.any_eq_true, Prod.exists, and_assoc]

theorem applyOverlays_pred (P : Value → Prop) (f : String) (pp : Dict (Dict String))
    (md : Dict Value) (hstr : ∀ s, P (Value.str s)) (hmd : ∀ kv ∈ md, P kv.2) :
    ∀ kv ∈ applyOverlays f md pp, P kv.2 := by
  induction pp generalizing md with
  | nil => simpa [applyOverlays] using hmd
  | cons hd tl ih =>
      obtain ⟨pid, props⟩ := hd
      rw [show applyOverlays f md ((pid, props) :: tl)
            = applyOverlays f
                (if ruleMatch pid f then dupdate md (strProps props) else md) tl
            from rfl]
      apply ih
      cases hm : ruleMatch pid f with
      | true =>
          rw [if_pos rfl]
          refine dupdate_pred P md (strProps props) hmd ?_
          intro kv hkv
          obtain ⟨⟨a, b⟩, _, hab⟩ := List.mem_map.mp hkv
          rw [← hab]
          exact hstr b
      | false =>
          rw [if_neg (by simp)]
          exact hmd

theorem bidsFlattenInto_no_dict (q : List (String × Value)) (acc : Dict Value)
    (hacc : ∀ kv ∈ acc, kv.2.isDictV = false) :
    ∀ kv ∈ bidsFlattenInto acc q, kv.2.isDictV = false := by
  induction q generalizing acc with
  | nil => simpa [bidsFlattenInto] using hacc
  | cons hd tl ih =>
      obtain ⟨k, v⟩ := hd
      rw [show bidsFlattenInto acc ((k, v) :: tl)
            = bidsFlattenInto (if v.isDictV then acc else dinsert acc ("bids:" ++ k) v) tl
            from rfl]
      apply ih
      cases hv : v.isDictV with
      | true => simpa using hacc
      | false =>
          rw [if_neg (by simp)]
          exact dinsert_pred (fun w => w.isDictV = false) acc ("bids:" ++ k) v hacc hv

theorem processFile_ok_no_dict (env : CnEnv) (pp : Dict (Dict String)) (f : String)
    (md : Dict Value) (h : processFile env pp f = .ok md) :
    ∀ kv ∈ md, kv.2.isDictV = false := by
  unfold processFile at h
  cases hq : env.fileQuery f with
  | ok qmd =>
      rw [hq] at h
      have hmd : md = applyOverlays f (bidsFlattenInto [] qmd) pp := by
        cases h; rfl
      subst hmd
      exact applyOverlays_pred (fun w => w.isDictV = false) f pp _ (fun s => rfl)
        (bidsFlattenInto_no_dict qmd [] (by simp))
  | error e =>
      rw [hq] at h
      cases hr : env.raiseonerror with
      | true => rw [hr] at h; simp at h
      | false =>
          rw [hr] at h
          have hmd : md = applyOverlays f [] pp := by
            simp at h
            exact h.symm
          subst hmd
          exact applyOverlays_pred (fun w => w.isDictV = false) f pp [] (fun s => rfl)
            (by simp)

theorem processFile_of_mem_cnAux (env : CnEnv) (pp : Dict (Dict String))
    (paths : List String) (f : String) (md : Dict Value)
    (h : (f, md) ∈ (cnAux env pp paths).pairs) :
    processFile env pp f = .ok md := by
  induction paths with
  | nil => simp [cnAux] at h
  | cons g rest ih =>
      by_cases hj : py_endswith g ".json" = true
      · rw [show cnAux env pp (g :: rest)
              = if py_endswith g ".json" then cnAux env pp rest
                else match processFile env pp g with
                     | .ok md =>
                         let r := cnAux env pp rest
                         ⟨(g, md) :: r.pairs, r.err⟩
                     | .error e => ⟨[], some e⟩ from rfl, if_pos hj] at h
        exact ih h
      · rw [show cnAux env pp (g :: rest)
              = if py_endswith g ".json" then cnAux env pp rest
                else match processFile env pp g with
                     | .ok md =>
                         let r := cnAux env pp rest
                         ⟨(g, md) :: r.pairs, r.err⟩
                     | .error e => ⟨[], some e⟩ from rfl, if_neg hj] at h
        cases hp : processFile env pp g with
        | ok md' =>
            rw [hp] at h
            rcases List.mem_cons.mp h with heq | htl
            · obtain ⟨h1, h2⟩ := Prod.mk.injEq .. ▸ heq
              subst h1; subst h2
              exact hp
            · exact ih htl
        | error e =>
            rw [hp] at h
            simp at h

theorem cnAux_paths (env : CnEnv) (pp : Dict (Dict String)) (paths : List String) :
    (∃ t, paths.filter (fun f => !py_endswith f ".json")
        = (cnAux env pp paths).pairs.map Prod.fst ++ t)
    ∧ ((cnAux env pp paths).err = none →
        (cnAux env pp paths).pairs.map Prod.fst
          = paths.filter (fun f => !py_endswith f ".json")) := by
  induction paths with
  | nil => simp [cnAux]
  | cons g rest ih =>
      by_cases hj : py_endswith g ".json" = true
      · rw [show cnAux env pp (g :: rest)
              = if py_endswith g ".json" then cnAux env pp rest
                else match processFile env pp g with
                     | .ok md =>
                         let r := cnAux env pp rest
                         ⟨(g, md) :: r.pairs, r.err⟩
                     | .error e => ⟨[], some e⟩ from rfl, if_pos hj]
        rw [List.filter_cons, if_neg (by simp [hj])]
        exact ih
      · have hjf : py_endswith g ".json" = false := by
          cases hjv : py_endswith g ".json" with
          | true => exact absurd hjv hj
          | false => rfl
        rw [show cnAux env pp (g :: rest)
              = if py_endswith g ".json" then cnAux env pp rest
                else match processFile env pp g with
                     | .ok md =>
                         let r := cnAux env pp rest
                         ⟨(g, md) :: r.pairs, r.err⟩
                     | .error e => ⟨[], some e⟩ from rfl, if_neg hj]
        rw [List.filter_cons, if_pos (by simp [hjf])]
        cases hp : processFile env pp g with
        | ok md =>
            constructor
            · obtain ⟨t, ht⟩ := ih.1
              exact ⟨t, by simp [ht]⟩
            · intro herr
              simp at herr ⊢
              exact ih.2 herr
        | error e =>
            constructor
            · exact ⟨g :: rest.filter (fun f => !py_endswith f ".json"), by simp⟩
            · intro herr
              simp at herr

/-! ## The compiled pattern on literal participant ids -/

/-- A character that compiles to a literal atom: not a metacharacter
and not `.`. -/
def isLitChar (c : Char) : Bool := !(isReMeta c) && !(c = '.')

theorem compileChar_lit (c : Char) (h : isLitChar c = true) :
    compileChar c = some (.lit c) := by
  unfold isLitChar at h
  rw [Bool.and_eq_true, Bool.not_eq_true', Bool.not_eq_true'] at h
  unfold compileChar
  rw [if_neg (by simp [h.1]), if_neg (of_decide_eq_false h.2)]

theorem compileSimple_lits (l : List Char) (h : ∀ c ∈ l, isLitChar c = true) :
    compileSimple l = some (l.map RAtom.lit) := by
  induction l with
  | nil => rfl
  | cons c cs ih =>
      show (match compileChar c, compileSimple cs with
            | some a, some as => some (a :: as)
            | _, _ => none) = _
      rw [compileChar_lit c (h c (List.mem_cons_self _ _)),
          ih (fun d hd => h d (List.mem_cons_of_mem _ hd))]
      rfl

theorem reMatchAtoms_lits (l s : List Char) :
    reMatchAtoms (l.map RAtom.lit) s = lpre (l ++ ['/']) s := by
  induction l generalizing s with
  | nil =>
      cases s with
      | nil => rfl
      | cons d ds => simp [reMatchAtoms, lpre, eq_comm]
  | cons c cs ih =>
      cases s with
      | nil => rfl
      | cons d ds => simp [reMatchAtoms, lpre, atomMatch, ih]

theorem ruleMatch_eq_startswith (pid path : String)
    (h : ∀ c ∈ pid.data, isLitChar c = true) :
    ruleMatch pid path = py_startswith path (pid ++ "/") := by
  unfold ruleMatch
  rw [compileSimple_lits pid.data h]
  show reMatchAtoms (pid.data.map RAtom.lit) path.data = _
  rw [reMatchAtoms_lits]
  unfold py_startswith
  congr 1

/-! ## Participant rules -/

theorem ypi_cons (row : Row) (rest : List Row) (pid : String)
    (hpid : dget row "participant_id" = some pid)
    (hne : ¬ rowProps row = []) :
    yield_participant_info (row :: rest)
      = (pid, rowProps row) :: yield_participant_info rest := by
  simp only [yield_participant_info]
  rw [hpid]
  simp [List.isEmpty_iff, hne]

theorem isSome_of_mem_cnAux (env : CnEnv) (pp : Dict (Dict String))
    (paths : List String) (f : String) (md : Dict Value) (k : String)
    (hmem : (f, md) ∈ (cnAux env pp paths).pairs)
    (hrule : ∃ pid props, (pid, props) ∈ pp ∧ ruleMatch pid f = true
               ∧ k ∈ props.map Prod.fst) :
    (dget md k).isSome = true := by
  have hp := processFile_of_mem_cnAux env pp paths f md hmem
  unfold processFile at hp
  cases hq : env.fileQuery f with
  | ok qmd =>
      rw [hq] at hp
      have hmd : md = applyOverlays f (bidsFlattenInto [] qmd) pp := by
        cases hp; rfl
      subst hmd
      exact (isSome_applyOverlays_iff pp f _ k).mpr (Or.inr hrule)
  | error e =>
      rw [hq] at hp
      cases hr : env.raiseonerror with
      | true => rw [hr] at hp; simp at hp
      | false =>
          rw [hr] at hp
          simp at hp
          rw [← hp]
          exact (isSome_applyOverlays_iff pp f _ k).mpr (Or.inr hrule)

theorem mem_keys_of_dget {α : Type} (d : Dict α) (k : String)
    (h : (dget d k).isSome = true) : k ∈ d.map Prod.fst := by
  cases hv : dget d k with
  | none => rw [hv] at h; simp at h
  | some v => exact List.mem_map.mpr ⟨(k, v), mem_of_dget d k v hv, rfl⟩

/-! ## Concrete evaluation environments -/

/-- A file whose layout query raises, with a matching participant rule. -/
def envQFail : CnEnv :=
  { paths := ["sub-01/x.nii"],
    fileQuery := fun _ => .error "boom",
    participantsRows := some [[("participant_id", "sub-01")]],
    raiseonerror := false }

/-- A file whose layout query returns a list-valued entry. -/
def envListVal : CnEnv :=
  { paths := ["x.nii"],
    fileQuery := fun _ => .ok [("SliceTiming", .list [.num 1])],
    participantsRows := none,
    raiseonerror := false }

/-- A participant id containing the regex metacharacter `.`. -/
def envDotPid : CnEnv :=
  { paths := ["aXb/f"],
    fileQuery := fun _ => .ok [],
    participantsRows := some [[("participant_id", "a.b")]],
    raiseonerror := false }

/-- A candidate list containing the same path twice. -/
def envDupPaths : CnEnv :=
  { paths := ["a.nii", "a.nii"],
    fileQuery := fun _ => .ok [],
    participantsRows := none,
    raiseonerror := false }

/-- Distinct candidate paths, one of them a sidecar file. -/
def envPlain : CnEnv :=
  { paths := ["a.nii", "b.json", "c.nii"],
    fileQuery := fun _ => .ok [],
    participantsRows := none,
    raiseonerror := false }

/-- The spec's two-row participant table example. -/
def envSubjects : CnEnv :=
  { paths := ["sub-01/anat/t1.nii", "sub-02/anat/t1.nii"],
    fileQuery := fun _ => .ok [],
    participantsRows := some
      [[("participant_id", "sub-01"), ("age", "30"), ("sex", "F")],
       [("participant_id", "sub-02"), ("age", "")]],
    raiseonerror := false }

/-- A descriptor carrying a `BIDSVersion`. -/
def dsEnvV12 : DsEnv := ⟨[("BIDSVersion", Value.str " 1.2 ")], none⟩

/-- The dataset record extracted from `dsEnvV12`. -/
def dsMetaV12 : Dict Value := ((getDsmeta dsEnvV12).toOption).getD []

/-- An empty descriptor next to a README. -/
def dsEnvReadme : DsEnv := ⟨[], some "  Hello world  "⟩

/-- The dataset record extracted from `dsEnvReadme`. -/
def dsMetaReadme : Dict Value := ((getDsmeta dsEnvReadme).toOption).getD []

/-! ## Claims -/

/-- C1: for every dataset root under which the descriptor file
`dataset_description.json` does not exist, `get_metadata(dataset,
content)` returns the pair of an empty dataset metadata mapping and an
empty file metadata sequence, for both values of the `content` flag. -/
theorem C1_no_descriptor_empty (env : DatasetEnv) (h : env.hasDescriptor = false)
    (content : Bool) :
    get_metadata env content = .ok ([], emptyCn) := by
  unfold get_metadata
  rw [h]
  rfl

theorem C1_no_descriptor_empty_witness :
    (DatasetEnv.mk false ⟨[("Name", Value.str "X")], none⟩ envPlain).hasDescriptor = false
    ∧ get_metadata (DatasetEnv.mk false ⟨[("Name", Value.str "X")], none⟩ envPlain) true
        = .ok ([], emptyCn)
    ∧ get_metadata (DatasetEnv.mk false ⟨[("Name", Value.str "X")], none⟩ envPlain) false
        = .ok ([], emptyCn) :=
  ⟨rfl,
   C1_no_descriptor_empty _ rfl true,
   C1_no_descriptor_empty _ rfl false⟩

/-- C2 counterexample: under the default (lenient) configuration, a file
whose query raises still receives the overlay properties of its matching
subject rule, and those overlay properties themselves include a
`bids:`-prefixed key (`bids:participant_id`), so the record is *not*
free of `bids:`-prefixed keys as the claim states. -/
theorem C2_counterexample :
    (get_cnmeta envQFail).pairs
      = [("sub-01/x.nii", [("bids:participant_id", Value.str "sub-01")])]
    ∧ py_startswith "bids:participant_id" "bids:" = true := ⟨rfl, rfl⟩

/-- C2 (amended): when the per-file query for a candidate `f` raises:
under lenient configuration the generator yields for `f` exactly the
merged overlay properties of the matching subject rules — the base
record is empty, so every key of the record comes from some matching
rule (such keys may themselves be `bids:`-prefixed, e.g.
`bids:participant_id`) — and continues with the remaining files; under
strict configuration the error propagates and no further pairs are
yielded. -/
theorem C2_amended (env : CnEnv) (f e : String) (rest : List String)
    (hjson : py_endswith f ".json" = false)
    (hq : env.fileQuery f = .error e) :
    (env.raiseonerror = false →
      cnAux env (pathProps env) (f :: rest)
        = ⟨(f, applyOverlays f [] (pathProps env))
             :: (cnAux env (pathProps env) rest).pairs,
           (cnAux env (pathProps env) rest).err⟩
      ∧ ∀ k, (dget (applyOverlays f [] (pathProps env)) k).isSome = true ↔
          ∃ pid props, (pid, props) ∈ pathProps env ∧ ruleMatch pid f = true
            ∧ k ∈ props.map Prod.fst)
    ∧ (env.raiseonerror = true →
        cnAux env (pathProps env) (f :: rest) = ⟨[], some e⟩) := by
  constructor
  · intro hlen
    have hpf : processFile env (pathProps env) f
        = .ok (applyOverlays f [] (pathProps env)) := by
      unfold processFile
      rw [hq, hlen]
      rfl
    constructor
    · rw [show cnAux env (pathProps env) (f :: rest)
            = if py_endswith f ".json" then cnAux env (pathProps env) rest
              else match processFile env (pathProps env) f with
                   | .ok md =>
                       let r := cnAux env (pathProps env) rest
                       ⟨(f, md) :: r.pairs, r.err⟩
                   | .error e => ⟨[], some e⟩ from rfl,
          if_neg (by simp [hjson]), hpf]
    · intro k
      rw [isSome_applyOverlays_iff]
      simp [dget]
  · intro hstrict
    have hpf : processFile env (pathProps env) f = .error e := by
      unfold processFile
      rw [hq, hstrict]
      rfl
    rw [show cnAux env (pathProps env) (f :: rest)
          = if py_endswith f ".json" then cnAux env (pathProps env) rest
            else match processFile env (pathProps env) f with
                 | .ok md =>
                     let r := cnAux env (pathProps env) rest
                     ⟨(f, md) :: r.pairs, r.err⟩
                 | .error e => ⟨[], some e⟩ from rfl,
        if_neg (by simp [hjson]), hpf]

theorem C2_amended_witness :
    py_endswith "sub-01/x.nii" ".json" = false
    ∧ envQFail.fileQuery "sub-01/x.nii" = .error "boom"
    ∧ cnAux envQFail (pathProps envQFail) ["sub-01/x.nii"]
        = ⟨[("sub-01/x.nii", applyOverlays "sub-01/x.nii" [] (pathProps envQFail))],
           none⟩
    ∧ cnAux { envQFail with raiseonerror := true }
        (pathProps { envQFail with raiseonerror := true }) ["sub-01/x.nii"]
        = ⟨[], some "boom"⟩ := by
  refine ⟨rfl, rfl, ?_, ?_⟩
  · have h := ((C2_amended envQFail "sub-01/x.nii" "boom" [] rfl rfl).1 rfl).1
    rw [h]
    rfl
  · exact (C2_amended { envQFail with raiseonerror := true }
      "sub-01/x.nii" "boom" [] rfl rfl).2 rfl

/-- C3 counterexample: a per-file query result with a list value — a
nested structure — is not dropped: the yielded record for `x.nii`
contains `bids:SliceTiming` mapped to a list. -/
theorem C3_counterexample :
    (get_cnmeta envListVal).pairs
      = [("x.nii", [("bids:SliceTiming", Value.list [Value.num 1])])]
    ∧ Value.isNested (Value.list [Value.num 1]) = true := ⟨rfl, rfl⟩

/-- C3 (amended): the record produced for a candidate file never
contains a value that is a mapping (Python `dict`): every query-result
entry whose value is a `dict` is dropped before the record is yielded.
Other nested values — in particular lists — are kept. -/
theorem C3_amended (env : CnEnv) (f : String) (md : Dict Value)
    (hmem : (f, md) ∈ (get_cnmeta env).pairs) (k : String) (v : Value)
    (hk : dget md k = some v) : v.isDictV = false :=
  processFile_ok_no_dict env (pathProps env) f md
    (processFile_of_mem_cnAux env (pathProps env) env.paths f md hmem)
    (k, v) (mem_of_dget md k v hk)

theorem C3_amended_witness :
    ("x.nii", [("bids:SliceTiming", Value.list [Value.num 1])])
        ∈ (get_cnmeta envListVal).pairs
    ∧ dget [("bids:SliceTiming", Value.list [Value.num 1])] "bids:SliceTiming"
        = some (Value.list [Value.num 1])
    ∧ (Value.list [Value.num 1]).isDictV = false := by
  refine ⟨List.mem_cons_self _ _, rfl, ?_⟩
  exact C3_amended envListVal "x.nii" _ (List.mem_cons_self _ _)
    "bids:SliceTiming" _ rfl

/-- C4 counterexample: a participant id containing the regex
metacharacter `.` yields a rule that is applied to a file whose path
does *not* start with the id followed by `/`: id `a.b` matches path
`aXb/f`. -/
theorem C4_counterexample :
    yield_participant_info [[("participant_id", "a.b")]]
      = [("a.b", [("bids:participant_id", "a.b")])]
    ∧ ruleMatch "a.b" "aXb/f" = true
    ∧ py_startswith "aXb/f" ("a.b" ++ "/") = false
    ∧ (get_cnmeta envDotPid).pairs
        = [("aXb/f", [("bids:participant_id", Value.str "a.b")])] :=
  ⟨rfl, rfl, rfl, rfl⟩

/-- C4 (amended): a rule's overlay properties are applied to a file iff
the path matches the compiled pattern `^<participant_id>/.*`; when
every character of the participant id is matched literally by the regex
engine (no metacharacter, no `.`), this holds iff the path starts with
the participant id followed by `/`. -/
theorem C4_amended (pid path : String)
    (h : ∀ c ∈ pid.data, isLitChar c = true) (props : Dict String)
    (md : Dict Value) :
    ruleMatch pid path = py_startswith path (pid ++ "/")
    ∧ applyOverlays path md [(pid, props)]
        = (if py_startswith path (pid ++ "/") then dupdate md (strProps props)
           else md) := by
  have hr := ruleMatch_eq_startswith pid path h
  refine ⟨hr, ?_⟩
  show (if ruleMatch pid path then dupdate md (strProps props) else md) = _
  rw [hr]

theorem C4_amended_witness :
    (∀ c ∈ ("sub-01" : String).data, isLitChar c = true)
    ∧ ruleMatch "sub-01" "sub-01/anat/t1.nii"
        = py_startswith "sub-01/anat/t1.nii" ("sub-01" ++ "/")
    ∧ ruleMatch "sub-01" "sub-01/anat/t1.nii" = true
    ∧ ruleMatch "sub-01" "sub-02/anat/t1.nii" = false := by
  refine ⟨by decide, ?_, rfl, rfl⟩
  exact (C4_amended "sub-01" "sub-01/anat/t1.nii" (by decide) [] []).1

theorem getDsmeta_ok_eq (env : DsEnv) (bv : String)
    (hbv : bidsVersionE (dsMetaPreV env) = .ok bv) :
    getDsmeta env
      = .ok (dinsert
              (dinsert (dsMetaPreV env) "conformsto" (.str (bidsDefurl bv)))
              "@context" (.dict (bidsContext (bidsDefurl bv)))) := by
  unfold getDsmeta
  rw [hbv]

theorem getDsmeta_err_eq (env : DsEnv) (e : Unit)
    (hbv : bidsVersionE (dsMetaPreV env) = .error e) :
    getDsmeta env = .error e := by
  unfold getDsmeta
  rw [hbv]

/-- C5: the dataset record maps each raw descriptor key through the
fixed table `Name→name, License→license, Authors→author,
ReferencesAndLinks→citation, Funding→fundedby,
Description→description`, and stores every key not in the table under
`comment<OriginalKey>` with its value unchanged; in particular a
descriptor with `Name="X"` and `Unknown="Y"` produces `name="X"` and
`comment<Unknown>="Y"`. -/
theorem C5_descriptor_remap (raw : Dict Value) (k : String) (v : Value)
    (hnd : (raw.map Prod.fst).Nodup) (hmem : (k, v) ∈ raw) :
    dget (remapDescr raw) (stdkeyOf k) = some v
    ∧ stdkeyOf "Name" = "name" ∧ stdkeyOf "License" = "license"
    ∧ stdkeyOf "Authors" = "author" ∧ stdkeyOf "ReferencesAndLinks" = "citation"
    ∧ stdkeyOf "Funding" = "fundedby" ∧ stdkeyOf "Description" = "description"
    ∧ (dget key2stdkey k = none → stdkeyOf k = "comment<" ++ k ++ ">")
    ∧ (∃ md, getDsmeta ⟨[("Name", Value.str "X"), ("Unknown", Value.str "Y")], none⟩
               = .ok md
        ∧ dget md "name" = some (Value.str "X")
        ∧ dget md "comment<Unknown>" = some (Value.str "Y")) := by
  refine ⟨dget_remapDescr raw k v hnd hmem, rfl, rfl, rfl, rfl, rfl, rfl, ?_, ?_⟩
  · intro hnone
    simp [stdkeyOf, hnone]
  · exact ⟨_, rfl, rfl, rfl⟩

theorem C5_descriptor_remap_witness :
    (([("Name", Value.str "X"), ("Unknown", Value.str "Y")].map
        (Prod.fst (β := Value))).Nodup)
    ∧ ("Unknown", Value.str "Y") ∈ [("Name", Value.str "X"), ("Unknown", Value.str "Y")]
    ∧ dget (remapDescr [("Name", Value.str "X"), ("Unknown", Value.str "Y")])
        (stdkeyOf "Unknown") = some (Value.str "Y")
    ∧ stdkeyOf "Unknown" = "comment<Unknown>" := by
  refine ⟨by decide, by simp, ?_, rfl⟩
  exact (C5_descriptor_remap [("Name", Value.str "X"), ("Unknown", Value.str "Y")]
    "Unknown" (Value.str "Y") (by decide) (by simp)).1

/-- C6: the dataset record's `conformsto` value equals the convention
base URL with `/bids_spec<version>.pdf` appended when the
`comment<BIDSVersion>` value — treating `None` as empty and stripping
whitespace — is non-empty, and equals the bare base URL when the value
is absent, `None`, or whitespace-only. -/
theorem C6_conformsto (env : DsEnv) (md : Dict Value)
    (h : getDsmeta env = .ok md) :
    ∃ bv, bidsVersionE (dsMetaPreV env) = .ok bv
      ∧ dget md "conformsto" = some (.str (bidsDefurl bv))
      ∧ bidsDefurl bv = (if bv = "" then "http://bids.neuroimaging.io"
          else "http://bids.neuroimaging.io" ++ "/bids_spec" ++ bv ++ ".pdf")
      ∧ (dget (dsMetaPreV env) "comment<BIDSVersion>" = none → bv = "")
      ∧ (∀ s, dget (dsMetaPreV env) "comment<BIDSVersion>" = some (.str s)
            → bv = pyStrip s)
      ∧ (dget (dsMetaPreV env) "comment<BIDSVersion>" = some .null → bv = "") := by
  cases hbv : bidsVersionE (dsMetaPreV env) with
  | error e =>
      rw [getDsmeta_err_eq env e hbv] at h
      simp at h
  | ok bv =>
      rw [getDsmeta_ok_eq env bv hbv] at h
      have hmd := Except.ok.inj h
      subst hmd
      refine ⟨bv, rfl, ?_, ?_, ?_, ?_, ?_⟩
      · rw [dget_dinsert, if_neg (by decide), dget_dinsert, if_pos rfl]
      · by_cases hbv0 : bv = "" <;> simp [bidsDefurl, truthy, hbv0]
      · intro hn
        unfold bidsVersionE at hbv
        rw [hn] at hbv
        simp [truthy] at hbv
        rw [← hbv]
        rfl
      · intro s hs
        unfold bidsVersionE at hbv
        rw [hs] at hbv
        by_cases hs0 : s = ""
        · subst hs0
          simp [truthy] at hbv
          rw [← hbv]
        · simp [truthy, hs0] at hbv
          exact hbv.symm
      · intro hn
        unfold bidsVersionE at hbv
        rw [hn] at hbv
        simp [truthy] at hbv
        rw [← hbv]
        rfl

theorem C6_conformsto_witness :
    getDsmeta dsEnvV12 = .ok dsMetaV12
    ∧ (∃ bv, bidsVersionE (dsMetaPreV dsEnvV12) = .ok bv
        ∧ dget dsMetaV12 "conformsto" = some (Value.str (bidsDefurl bv)))
    ∧ dget dsMetaV12 "conformsto"
        = some (Value.str "http://bids.neuroimaging.io/bids_spec1.2.pdf")
    ∧ dget (dsMetaPreV dsEnvV12) "comment<BIDSVersion>" = some (Value.str " 1.2 ")
    ∧ getDsmeta ⟨[], none⟩
        = .ok (dinsert
                (dinsert (dsMetaPreV ⟨[], none⟩) "conformsto"
                  (Value.str "http://bids.neuroimaging.io"))
                "@context"
                (Value.dict (bidsContext "http://bids.neuroimaging.io"))) := by
  refine ⟨rfl, ?_, rfl, rfl, rfl⟩
  obtain ⟨bv, h1, h2, _⟩ := C6_conformsto dsEnvV12 dsMetaV12 rfl
  exact ⟨bv, h1, h2⟩

/-- C7: whenever the remapped descriptor metadata yields no
`description` value and a `README` exists at the dataset root, the
dataset record's `description` equals the README text with surrounding
whitespace stripped. -/
theorem C7_readme_description (env : DsEnv) (txt : String) (md : Dict Value)
    (hr : env.readme = some txt)
    (hd : dget (remapDescr env.descrMeta) "description" = none)
    (h : getDsmeta env = .ok md) :
    dget md "description" = some (.str (pyStrip txt)) := by
  have hpre : dsMetaPreV env
      = dinsert (remapDescr env.descrMeta) "description" (.str (pyStrip txt)) := by
    simp only [dsMetaPreV]
    rw [hr, hd]
    rfl
  cases hbv : bidsVersionE (dsMetaPreV env) with
  | error e =>
      rw [getDsmeta_err_eq env e hbv] at h
      simp at h
  | ok bv =>
      rw [getDsmeta_ok_eq env bv hbv] at h
      have hmd := Except.ok.inj h
      subst hmd
      rw [dget_dinsert, if_neg (by decide), dget_dinsert, if_neg (by decide),
          hpre, dget_dinsert, if_pos rfl]

theorem C7_readme_description_witness :
    dsEnvReadme.readme = some "  Hello world  "
    ∧ dget (remapDescr dsEnvReadme.descrMeta) "description" = none
    ∧ getDsmeta dsEnvReadme = .ok dsMetaReadme
    ∧ dget dsMetaReadme "description" = some (Value.str (pyStrip "  Hello world  "))
    ∧ pyStrip "  Hello world  " = "Hello world" := by
  refine ⟨rfl, rfl, rfl, ?_, rfl⟩
  exact C7_readme_description dsEnvReadme "  Hello world  " dsMetaReadme rfl rfl rfl

/-- C8 counterexample: a candidate list containing the same non-sidecar
path twice yields that path twice, so a path can appear more than once
in the per-file metadata sequence. -/
theorem C8_counterexample :
    (get_cnmeta envDupPaths).pairs.map Prod.fst = ["a.nii", "a.nii"]
    ∧ ((get_cnmeta envDupPaths).pairs.map Prod.fst).count "a.nii" = 2 := by
  exact ⟨rfl, by decide⟩

/-- C8 (amended): the per-file metadata sequence's output paths are an
initial segment of the candidate paths not ending in `.json`, in input
order and with input multiplicity — the whole of them when no error
terminates the iteration; when the candidate paths are distinct each
output path appears at most once; and no path ending in `.json` ever
appears. -/
theorem C8_amended (env : CnEnv) :
    (∃ t, env.paths.filter (fun f => !py_endswith f ".json")
        = (get_cnmeta env).pairs.map Prod.fst ++ t)
    ∧ ((get_cnmeta env).err = none →
        (get_cnmeta env).pairs.map Prod.fst
          = env.paths.filter (fun f => !py_endswith f ".json"))
    ∧ (env.paths.Nodup → ∀ f, ((get_cnmeta env).pairs.map Prod.fst).count f ≤ 1)
    ∧ (∀ f ∈ (get_cnmeta env).pairs.map Prod.fst, py_endswith f ".json" = false) := by
  obtain ⟨hpre, herr⟩ := cnAux_paths env (pathProps env) env.paths
  refine ⟨hpre, herr, ?_, ?_⟩
  · intro hnd f
    obtain ⟨t, ht⟩ := hpre
    have hfil : (env.paths.filter (fun f => !py_endswith f ".json")).Nodup :=
      hnd.filter _
    rw [ht] at hfil
    exact List.nodup_iff_count_le_one.mp (List.Nodup.of_append_left hfil) f
  · intro f hf
    obtain ⟨t, ht⟩ := hpre
    have hmemf : f ∈ env.paths.filter (fun g => !py_endswith g ".json") := by
      rw [ht]
      exact List.mem_append_left _ hf
    have hp := List.of_mem_filter hmemf
    simpa using hp

theorem C8_amended_witness :
    envPlain.paths.Nodup
    ∧ (get_cnmeta envPlain).err = none
    ∧ (get_cnmeta envPlain).pairs.map Prod.fst = ["a.nii", "c.nii"]
    ∧ ((get_cnmeta envPlain).pairs.map Prod.fst).count "a.nii" ≤ 1 := by
  refine ⟨by decide, rfl, ?_, ?_⟩
  · have h := (C8_amended envPlain).2.1 rfl
    rw [h]
    rfl
  · exact (C8_amended envPlain).2.2.1 (by decide) "a.nii"

/-- C9: for every subject-table row, each column name is lowercased and
mapped through the fixed table (`age→bids:age(years)`), otherwise
becoming `comment<participant#columnname>`; sex/gender values are
normalized via `f→female`, `m→male` (other values pass through
lowercased), and columns with empty values are omitted; in particular,
on the spec's two-row table, `sub-01/anat/t1.nii` receives
`bids:age(years)=30` and `comment<participant#sex>=female`, and
`sub-02/anat/t1.nii` receives no age key. -/
theorem C9_subject_columns (row : Row) (k v : String)
    (hnd : (row.map (fun kv => pyLower kv.1)).Nodup) (hmem : (k, v) ∈ row) :
    (dget content_metakey_map (pyLower k) = none →
       colKeyOf (pyLower k) = "comment<participant#" ++ pyLower k ++ ">")
    ∧ colKeyOf "age" = "bids:age(years)"
    ∧ sexNorm "F" = "female" ∧ sexNorm "M" = "male"
    ∧ (∀ w, dget sex_label_map (pyLower w) = none → sexNorm w = pyLower w)
    ∧ dget (rowProps row) (colKeyOf (pyLower k))
        = (if colVal k v = "" then none else some (colVal k v))
    ∧ (get_cnmeta envSubjects).pairs
        = [("sub-01/anat/t1.nii",
             [("bids:participant_id", Value.str "sub-01"),
              ("bids:age(years)", Value.str "30"),
              ("comment<participant#sex>", Value.str "female")]),
           ("sub-02/anat/t1.nii", [("bids:participant_id", Value.str "sub-02")])] := by
  refine ⟨?_, rfl, rfl, rfl, ?_, dget_rowProps row k v hnd hmem, rfl⟩
  · intro h
    simp [colKeyOf, h]
  · intro w h
    simp [sexNorm, h]

theorem C9_subject_columns_witness :
    (([("participant_id", "sub-01"), ("age", "30"), ("sex", "F")] : Row).map
       (fun kv => pyLower kv.1)).Nodup
    ∧ (("sex", "F") ∈ ([("participant_id", "sub-01"), ("age", "30"), ("sex", "F")] : Row))
    ∧ dget (rowProps [("participant_id", "sub-01"), ("age", "30"), ("sex", "F")])
        (colKeyOf (pyLower "sex")) = some "female"
    ∧ colKeyOf (pyLower "sex") = "comment<participant#sex>" := by
  refine ⟨by decide, by decide, ?_, rfl⟩
  have h := (C9_subject_columns
    [("participant_id", "sub-01"), ("age", "30"), ("sex", "F")]
    "sex" "F" (by decide) (by decide)).2.2.2.2.2.1
  rw [h]
  rfl

/-- C10: for every subject-table row whose `participant_id` value is
non-empty, the row's rule's overlay properties include
`bids:participant_id` mapped to that identifier (the `participant_id`
column is processed like every other column), and every yielded file
record whose path matches a rule carrying that key contains
`bids:participant_id`. -/
theorem C10_participant_id_key (row : Row) (rest : List Row) (pid : String)
    (hnd : (row.map (fun kv => pyLower kv.1)).Nodup)
    (hpid : dget row "participant_id" = some pid) (hne : ¬ pid = "") :
    dget (rowProps row) "bids:participant_id" = some pid
    ∧ yield_participant_info (row :: rest)
        = (pid, rowProps row) :: yield_participant_info rest
    ∧ (∀ (env : CnEnv) (f : String) (md : Dict Value),
        (f, md) ∈ (get_cnmeta env).pairs →
        (∃ props, (pid, props) ∈ pathProps env
           ∧ (dget props "bids:participant_id").isSome = true) →
        ruleMatch pid f = true →
        (dget md "bids:participant_id").isSome = true) := by
  have hmem := mem_of_dget row "participant_id" pid hpid
  have h1 := dget_rowProps row "participant_id" pid hnd hmem
  have h1' : dget (rowProps row) "bids:participant_id"
      = (if pid = "" then none else some pid) := h1
  rw [if_neg hne] at h1'
  refine ⟨h1', ?_, ?_⟩
  · apply ypi_cons row rest pid hpid
    intro hnil
    rw [hnil] at h1'
    simp [dget] at h1'
  · rintro env f md hmemp ⟨props, hpp, hkey⟩ hrm
    exact isSome_of_mem_cnAux env (pathProps env) env.paths f md
      "bids:participant_id" hmemp
      ⟨pid, props, hpp, hrm, mem_keys_of_dget props _ hkey⟩

theorem C10_participant_id_key_witness :
    dget ([("participant_id", "sub-01"), ("age", "30"), ("sex", "F")] : Row)
      "participant_id" = some "sub-01"
    ∧ dget (rowProps [("participant_id", "sub-01"), ("age", "30"), ("sex", "F")])
        "bids:participant_id" = some "sub-01"
    ∧ ("sub-01", [("bids:participant_id", "sub-01"), ("bids:age(years)", "30"),
         ("comment<participant#sex>", "female")]) ∈ pathProps envSubjects
    ∧ ruleMatch "sub-01" "sub-01/anat/t1.nii" = true
    ∧ (dget [("bids:participant_id", Value.str "sub-01"),
             ("bids:age(years)", Value.str "30"),
             ("comment<participant#sex>", Value.str "female")]
          "bids:participant_id").isSome = true := by
  refine ⟨rfl, ?_, by decide, rfl, ?_⟩
  · exact (C10_participant_id_key
      [("participant_id", "sub-01"), ("age", "30"), ("sex", "F")]
      [] "sub-01" (by decide) rfl (by decide)).1
  · exact (C10_participant_id_key
      [("participant_id", "sub-01"), ("age", "30"), ("sex", "F")]
      [] "sub-01" (by decide) rfl (by decide)).2.2 envSubjects "sub-01/anat/t1.nii"
      _ (List.mem_cons_self _ _)
      ⟨[("bids:participant_id", "sub-01"), ("bids:age(years)", "30"),
        ("comment<participant#sex>", "female")], by decide, rfl⟩ rfl

end Bids
